import Mathlib

/-!
Shallow embedding of the `signvalidator` Go package (sign-chao repository):
a canonicalize-and-digest signature engine.  Parameter values are the dynamic
`interface` values the package accepts; the cryptographic digest primitives
(MD5/SHA-1/SHA-256 and their HMAC variants) are external capabilities and are
modelled as an abstract bundle of byte-producing functions, exactly as the
spec treats them.  Everything else — copying, key filtering, sorting, value
coercion, string building, algorithm dispatch, hex encoding and case
normalization — is translated from the source.
-/

set_option maxRecDepth 8000

namespace SignChao

/-- Polymorphic parameter values: the dynamic `interface` values accepted by
the validator (string, integer, floating point, bool, nil, and the composite
list/map values that fall to the JSON branch of `convertToString`).
A floating-point number is modelled by its exact rational value. -/
inductive Value where
  | str (s : String)
  | int (n : Int)
  | float (q : ℚ)
  | bool (b : Bool)
  | null
  | list (vs : List Value)
  | map (kvs : List (String × Value))

/-- A Go `map[string]interface` value, modelled as an association list.
Theorems that depend on map semantics assume pairwise-distinct keys, which
every Go map guarantees. -/
abbrev Params := List (String × Value)

/-- Byte-wise lexicographic string comparison on (code-point) character lists:
the order used by Go's `sort.Strings` (on UTF-8 strings the byte order and the
code-point order coincide). -/
def strLeb : List Char → List Char → Bool
  | [], _ => true
  | _ :: _, [] => false
  | a :: as, b :: bs =>
    if a.toNat < b.toNat then true
    else if b.toNat < a.toNat then false
    else strLeb as bs

/-- The `≤` relation of `sort.Strings`, as a proposition. -/
def strLe (a b : String) : Prop := strLeb a.data b.data = true

instance : DecidableRel strLe := fun a b =>
  inferInstanceAs (Decidable (strLeb a.data b.data = true))

theorem strLeb_total (x y : List Char) : strLeb x y = true ∨ strLeb y x = true := by
  induction x generalizing y with
  | nil => left; rfl
  | cons a as ih =>
    cases y with
    | nil => right; rfl
    | cons b bs =>
      rcases Nat.lt_trichotomy a.toNat b.toNat with h | h | h
      · left; simp [strLeb, h]
      · have h1 : ¬ a.toNat < b.toNat := by omega
        have h2 : ¬ b.toNat < a.toNat := by omega
        rcases ih bs with hc | hc
        · left; simp [strLeb, h1, h2, hc]
        · right; simp [strLeb, h1, h2, hc]
      · right; simp [strLeb, h]

theorem strLeb_trans {x y z : List Char} (hxy : strLeb x y = true)
    (hyz : strLeb y z = true) : strLeb x z = true := by
  induction x generalizing y z with
  | nil => rfl
  | cons a as ih =>
    cases y with
    | nil => simp [strLeb] at hxy
    | cons b bs =>
      cases z with
      | nil => simp [strLeb] at hyz
      | cons c cs =>
        simp only [strLeb] at hxy hyz ⊢
        split at hxy
        · rename_i hab
          split
          · rfl
          · rename_i hac
            split
            · rename_i hca
              exfalso
              split at hyz
              · omega
              · split at hyz
                · exact absurd hyz (by simp)
                · omega
            · split at hyz
              · omega
              · split at hyz
                · exact absurd hyz (by simp)
                · omega
        · split at hxy
          · exact absurd hxy (by simp)
          · rename_i hab hba
            have hab' : a.toNat = b.toNat := by omega
            split at hyz
            · rename_i hbc
              split
              · rfl
              · omega
            · split at hyz
              · exact absurd hyz (by simp)
              · rename_i hbc hcb
                have hbc' : b.toNat = c.toNat := by omega
                split
                · omega
                · split
                  · omega
                  · exact ih hxy hyz

instance : IsTotal String strLe := ⟨fun a b => strLeb_total a.data b.data⟩

instance : IsTrans String strLe := ⟨fun _ _ _ h h' => strLeb_trans h h'⟩

/-- Base-10 digit characters of a natural number, most significant first,
accumulator style (the digits of `n` are prepended to `acc`).  The first
argument is structural fuel; any fuel `≥ n` gives the full digit string.
Models the digit loop behind `fmt.Sprintf("%d", ...)`. -/
def natDecimalGo : Nat → Nat → List Char → List Char
  | 0, _, acc => acc
  | fuel + 1, n, acc =>
    if n = 0 then acc
    else natDecimalGo fuel (n / 10) (Char.ofNat (48 + n % 10) :: acc)

/-- Base-10 rendering of a natural number (`0` renders as `"0"`). -/
def natDecimal (n : Nat) : List Char :=
  if n = 0 then ['0'] else natDecimalGo (n + 1) n []

/-- Base-10 rendering of a Go integer by `fmt.Sprintf("%d", ...)`:
a `-` sign for negatives followed by the digits of the absolute value. -/
def intDecimal (i : Int) : String :=
  if i < 0 then "-" ++ String.mk (natDecimal i.natAbs) else String.mk (natDecimal i.natAbs)

/-- The numeric value read back from a digit string (most significant first). -/
def digitsVal (l : List Char) : Nat :=
  l.foldl (fun a c => a * 10 + (c.toNat - 48)) 0

/-- The value `|q| * 10^6` rounded to the nearest integer (half away from zero), as the
single exact natural-number division `(2*|num|*10^6 + den) / (2*den)`.  This is
the scaled mantissa printed by `fmt.Sprintf("%.6f", ...)` on the exact value. -/
def fixed6Scaled (q : ℚ) : Nat :=
  (q.num.natAbs * 1000000 * 2 + q.den) / (2 * q.den)

/-- Left-pad a digit list with `'0'` up to length `k`. -/
def padZeros (k : Nat) (l : List Char) : List Char :=
  List.replicate (k - l.length) '0' ++ l

/-- Fixed-point rendering with exactly six fractional digits: models
`fmt.Sprintf("%.6f", ...)` applied to the exact value of the float. -/
def formatFixed6 (q : ℚ) : String :=
  let n := fixed6Scaled q
  let sign := if q.num < 0 then "-" else ""
  sign ++ String.mk (natDecimal (n / 1000000)) ++ "." ++
    String.mk (padZeros 6 (natDecimal (n % 1000000)))

/-- The lowercase hexadecimal digit table of `encoding/hex`. -/
def hexTable : List Char := "0123456789abcdef".data

/-- Escaping of one character inside a JSON string literal, as Go's
`encoding/json` does it with its default HTML escaping: `"` and `\` get a
backslash, `\n`/`\r`/`\t` use the short escapes, other control characters and
the HTML-sensitive `<`, `>`, `&` use `\u00XX`, and U+2028/U+2029 use `\u202X`. -/
def escapeJsonChar (c : Char) : List Char :=
  if c = '"' then ['\\', '"']
  else if c = '\\' then ['\\', '\\']
  else if c = '\n' then ['\\', 'n']
  else if c = '\r' then ['\\', 'r']
  else if c = '\t' then ['\\', 't']
  else if c = '<' ∨ c = '>' ∨ c = '&' ∨ c.toNat < 32 then
    ['\\', 'u', '0', '0', hexTable.getD (c.toNat / 16 % 16) '0', hexTable.getD (c.toNat % 16) '0']
  else if c.toNat = 0x2028 ∨ c.toNat = 0x2029 then
    ['\\', 'u', '2', '0', '2', hexTable.getD (c.toNat % 16) '0']
  else [c]

/-- JSON string-literal body escaping (`encoding/json` encoder). -/
def escapeJson (s : String) : String :=
  String.mk ((s.data.map escapeJsonChar).flatten)

/-- Join with a separator written before every element except the first:
the builder loop `for i, x := ...; if i > 0 write(sep); write(x)`. -/
def joinSep (sep : String) : List String → String
  | [] => ""
  | [s] => s
  | s :: t :: rest => s ++ sep ++ joinSep sep (t :: rest)

/-- Rendering of a float inside a JSON document.  Go uses the shortest decimal
form that round-trips; on the exact rational values arising here this is
modelled by printing six fractional digits and stripping trailing zeros (and a
trailing dot).  No theorem below depends on this case. -/
def jsonFloatRepr (q : ℚ) : String :=
  let ds := (formatFixed6 q).data
  let ds := (ds.reverse.dropWhile (· = '0')).reverse
  let ds := if ds.getLast? = some '.' then ds.dropLast else ds
  String.mk ds

mutual

/-- The `encoding/json` serialization of a dynamic value: strings are quoted and
escaped, numbers and booleans use their JSON forms, `nil` is `null`, lists
are `[...]`, and map keys are sorted ascending before the object is written
(Go's encoder sorts map keys). -/
def jsonMarshal : Value → String
  | .str s => "\"" ++ escapeJson s ++ "\""
  | .int n => intDecimal n
  | .float q => jsonFloatRepr q
  | .bool b => if b then "true" else "false"
  | .null => "null"
  | .list vs => "[" ++ joinSep "," (jsonMarshalList vs) ++ "]"
  | .map kvs =>
    let pairs := jsonMarshalPairs kvs
    let keys := List.insertionSort strLe (pairs.map Prod.fst)
    "\x7b" ++
      joinSep "," (keys.map fun k => "\"" ++ escapeJson k ++ "\":" ++ (pairs.lookup k).getD "") ++
      "\x7d"

/-- Serializations of the elements of a JSON array, in order. -/
def jsonMarshalList : List Value → List String
  | [] => []
  | v :: vs => jsonMarshal v :: jsonMarshalList vs

/-- Keys paired with the serializations of their values, in input order. -/
def jsonMarshalPairs : List (String × Value) → List (String × String)
  | [] => []
  | (k, v) :: kvs => (k, jsonMarshal v) :: jsonMarshalPairs kvs

end

/-- The coercion `convertToString`: the value-to-string coercion used when building the
canonical string (the `switch` in the source, with the composite cases falling
through to `json.Marshal`). -/
def convertToString : Value → String
  | .str s => s
  | .int n => intDecimal n
  | .float q => formatFixed6 q
  | .bool b => if b then "true" else "false"
  | .null => ""
  | .list vs => jsonMarshal (.list vs)
  | .map kvs => jsonMarshal (.map kvs)

/-- The `SignAlgorithm` constants.  `SignAlgorithm` is a Go string type, so it
is embedded as `String`; an arbitrary configuration may hold any string. -/
def MD5 : String := "md5"

/-- The `SHA1` algorithm constant. -/
def SHA1 : String := "sha1"

/-- The `SHA256` algorithm constant. -/
def SHA256 : String := "sha256"

/-- The `HMAC_MD5` algorithm constant. -/
def HMAC_MD5 : String := "hmac_md5"

/-- The `HMAC_SHA1` algorithm constant. -/
def HMAC_SHA1 : String := "hmac_sha1"

/-- The `HMAC_SHA256` algorithm constant. -/
def HMAC_SHA256 : String := "hmac_sha256"

/-- The validator configuration (`Config` struct of the source). -/
structure Config where
  Secret : String
  Algorithm : String
  SignatureKey : String
  IgnoreKeys : List String
  UpperCase : Bool

/-- Constructor `NewSignValidator`: resolves the configuration defaults (empty
`SignatureKey` becomes `"sign"`, empty `Algorithm` becomes SHA-256) and stores
it; the `SignValidator` value is just the resolved configuration. -/
def NewSignValidator (config : Config) : Config :=
  let config :=
    if config.SignatureKey = "" then { config with SignatureKey := "sign" } else config
  if config.Algorithm = "" then { config with Algorithm := SHA256 } else config

/-- The external digest capabilities (spec section 6): an unkeyed hash and an
HMAC for each of MD5, SHA-1 and SHA-256, producing raw digest bytes from the
bytes of a string (HMAC additionally takes the key, which the source derives
from the configured secret).  They are abstract here; the engine is proved
for every such bundle. -/
structure HashPrims where
  md5 : String → List Nat
  sha1 : String → List Nat
  sha256 : String → List Nat
  hmacMd5 : String → String → List Nat
  hmacSha1 : String → String → List Nat
  hmacSha256 : String → String → List Nat

/-- Hex encoding as `hex.EncodeToString`: two lowercase hex digits per byte. -/
def hexEncode (bs : List Nat) : String :=
  String.mk ((bs.map fun b => [hexTable.getD (b / 16 % 16) '0', hexTable.getD (b % 16) '0']).flatten)

/-- Lowercasing as `strings.ToLower`, character by character. -/
def strToLower (s : String) : String := String.mk (s.data.map Char.toLower)

/-- Uppercasing as `strings.ToUpper`, character by character. -/
def strToUpper (s : String) : String := String.mk (s.data.map Char.toUpper)

/-- Go map insertion `m[k] = v`: any previous binding of `k` is replaced. -/
def mapInsert (m : Params) (k : String) (v : Value) : Params :=
  m.filter (fun kv => kv.1 != k) ++ [(k, v)]

/-- Go map deletion `delete(m, k)`: a missing key is silently skipped. -/
def mapDelete (m : Params) (k : String) : Params :=
  m.filter (fun kv => kv.1 != k)

/-- The copy loop `for k, v := range params ... paramsCopy[k] = v` into a fresh
empty map. -/
def copyParams (params : Params) : Params :=
  params.foldl (fun acc kv => mapInsert acc kv.1 kv.2) []

/-- The two delete steps of `GenerateSignature`: remove the signature key,
then every ignored key. -/
def removeParams (cfg : Config) (m : Params) : Params :=
  cfg.IgnoreKeys.foldl mapDelete (mapDelete m cfg.SignatureKey)

/-- The builder loop over the sorted keys of the filtered copy: the
`&`-joined `key=value` pairs, before the secret suffix. -/
def buildBase (paramsCopy : Params) : String :=
  let keys := List.insertionSort strLe (paramsCopy.map Prod.fst)
  joinSep "&" (keys.map fun k => k ++ "=" ++ convertToString ((paramsCopy.lookup k).getD Value.null))

/-- The complete string that is digested: the joined pairs, plus
`&key=<secret>` when the secret is non-empty. -/
def stringToSignOf (cfg : Config) (paramsCopy : Params) : String :=
  let s := buildBase paramsCopy
  if cfg.Secret ≠ "" then s ++ "&key=" ++ cfg.Secret else s

/-- The canonical string before the secret suffix, computed from the caller's
parameters (copy, filter, sort, join). -/
def canonicalBase (cfg : Config) (params : Params) : String :=
  buildBase (removeParams cfg (copyParams params))

/-- The canonical string of the caller's parameters, secret suffix included. -/
def canonicalString (cfg : Config) (params : Params) : String :=
  stringToSignOf cfg (removeParams cfg (copyParams params))

/-- Dispatch, hex encoding and case normalization applied to an
already-filtered copy of the parameters: the tail of `GenerateSignature`.
The result is the Go pair `(signature, error)`, the error being `none` for a
`nil` Go error. -/
def signatureOfCopy (H : HashPrims) (cfg : Config) (paramsCopy : Params) : String × Option String :=
  let stringToSign := stringToSignOf cfg paramsCopy
  let signBytes : Option (List Nat) :=
    if cfg.Algorithm = MD5 then some (H.md5 stringToSign)
    else if cfg.Algorithm = SHA1 then some (H.sha1 stringToSign)
    else if cfg.Algorithm = SHA256 then some (H.sha256 stringToSign)
    else if cfg.Algorithm = HMAC_MD5 then some (H.hmacMd5 cfg.Secret stringToSign)
    else if cfg.Algorithm = HMAC_SHA1 then some (H.hmacSha1 cfg.Secret stringToSign)
    else if cfg.Algorithm = HMAC_SHA256 then some (H.hmacSha256 cfg.Secret stringToSign)
    else none
  match signBytes with
  | none => ("", some ("不支持的签名算法: " ++ cfg.Algorithm))
  | some bs =>
    let signature := hexEncode bs
    ((if cfg.UpperCase then strToUpper signature else strToLower signature), none)

/-- The operation `GenerateSignature`: copy the caller's map, remove the signature key and
the ignored keys, canonicalize, digest, hex-encode and case-normalize. -/
def GenerateSignature (H : HashPrims) (cfg : Config) (params : Params) : String × Option String :=
  signatureOfCopy H cfg (removeParams cfg (copyParams params))

/-- The result of `GenerateSignature` together with the caller's map as the call leaves it:
the copy (not the caller's map) is filtered, so the second component is the
untouched input. -/
def GenerateSignatureProc (H : HashPrims) (cfg : Config) (params : Params) :
    (String × Option String) × Params :=
  let paramsCopy := copyParams params
  let paramsCopy := removeParams cfg paramsCopy
  (signatureOfCopy H cfg paramsCopy, params)

/-- The operation `Validate`: recompute the signature and compare with `==`; a generation
error is returned with `false`. -/
def Validate (H : HashPrims) (cfg : Config) (params : Params) (signature : String) :
    Bool × Option String :=
  match GenerateSignature H cfg params with
  | (_, some err) => (false, some err)
  | (expectedSign, none) => (expectedSign == signature, none)

/-- The operation `ValidateWithSignInParams`: look the signature up inside the parameters
under the configured signature key and delegate to `Validate`. -/
def ValidateWithSignInParams (H : HashPrims) (cfg : Config) (params : Params) :
    Bool × Option String :=
  match params.lookup cfg.SignatureKey with
  | none => (false, some "签名参数不存在")
  | some signValue =>
    match signValue with
    | .str signature => Validate H cfg params signature
    | _ => (false, some "签名参数不是字符串类型")

/-- A key survives the filtering step: it is neither the configured signature
key nor one of the ignored keys. -/
def keptB (cfg : Config) (k : String) : Bool :=
  k != cfg.SignatureKey && !(cfg.IgnoreKeys.contains k)

/-- Closed form of the copy-and-delete steps on a map with distinct keys. -/
def filteredParams (cfg : Config) (P : Params) : Params :=
  P.filter (fun kv => keptB cfg kv.1)

theorem filter_bne_eq_self {m : Params} {k : String}
    (h : k ∉ m.map Prod.fst) : m.filter (fun kv => kv.1 != k) = m := by
  induction m with
  | nil => rfl
  | cons kv m ih =>
    simp only [List.map_cons, List.mem_cons] at h
    push_neg at h
    rw [List.filter_cons]
    have hb : (kv.1 != k) = true := by
      simpa [bne_iff_ne] using fun e => h.1 e.symm
    simp [hb, ih h.2]

theorem foldl_mapInsert_of_nodup (P : Params) :
    ∀ acc : Params, ((acc ++ P).map Prod.fst).Nodup →
      P.foldl (fun acc kv => mapInsert acc kv.1 kv.2) acc = acc ++ P := by
  induction P with
  | nil => intro acc _; simp
  | cons kv P ih =>
    intro acc h
    have hk : kv.1 ∉ acc.map Prod.fst := by
      simp only [List.map_append, List.map_cons, List.nodup_append] at h
      intro hmem
      exact h.2.2 hmem (List.mem_cons_self _ _)
    have hins : mapInsert acc kv.1 kv.2 = acc ++ [kv] := by
      unfold mapInsert
      rw [filter_bne_eq_self hk]
    simp only [List.foldl_cons, hins]
    have h' : (((acc ++ [kv]) ++ P).map Prod.fst).Nodup := by
      simpa [List.append_assoc] using h
    simpa [List.append_assoc] using ih (acc ++ [kv]) h'

theorem copyParams_eq {P : Params} (h : (P.map Prod.fst).Nodup) :
    copyParams P = P := by
  unfold copyParams
  simpa using foldl_mapInsert_of_nodup P [] (by simpa using h)

theorem foldl_mapDelete_eq (ks : List String) :
    ∀ m : Params, ks.foldl mapDelete m = m.filter (fun kv => !(ks.contains kv.1)) := by
  induction ks with
  | nil => intro m; simp
  | cons k ks ih =>
    intro m
    simp only [List.foldl_cons]
    rw [ih (mapDelete m k)]
    unfold mapDelete
    rw [List.filter_filter]
    congr 1
    funext kv
    by_cases h1 : kv.1 = k <;> by_cases h2 : ks.contains kv.1 <;>
      simp [h1, h2, List.contains_cons]

theorem removeParams_eq (cfg : Config) (m : Params) :
    removeParams cfg m = m.filter (fun kv => keptB cfg kv.1) := by
  unfold removeParams
  rw [foldl_mapDelete_eq]
  unfold mapDelete
  rw [List.filter_filter]
  congr 1
  funext kv
  unfold keptB
  exact Bool.and_comm _ _

theorem removeParams_copy_eq {cfg : Config} {P : Params}
    (h : (P.map Prod.fst).Nodup) :
    removeParams cfg (copyParams P) = filteredParams cfg P := by
  rw [copyParams_eq h, removeParams_eq]
  rfl

theorem strAppend_cancel_right {s t u : String} (h : s ++ u = t ++ u) : s = t := by
  apply String.ext
  have h' := congrArg String.data h
  rw [String.data_append, String.data_append] at h'
  exact List.append_cancel_right h'

theorem strAppend_cancel_left {s t u : String} (h : u ++ s = u ++ t) : s = t := by
  apply String.ext
  have h' := congrArg String.data h
  rw [String.data_append, String.data_append] at h'
  exact List.append_cancel_left h'

theorem strAppend_assoc (s t u : String) : s ++ t ++ u = s ++ (t ++ u) := by
  apply String.ext
  simp [String.data_append, List.append_assoc]

theorem joinSep_cons₂ (sep a : String) {l : List String} (h : l ≠ []) :
    joinSep sep (a :: l) = a ++ sep ++ joinSep sep l := by
  cases l with
  | nil => exact absurd rfl h
  | cons b l => rfl

theorem joinSep_inj_at (sep : String) (A : List String) :
    ∀ (B : List String) (x x' : String),
      joinSep sep (A ++ x :: B) = joinSep sep (A ++ x' :: B) → x = x' := by
  induction A with
  | nil =>
    intro B x x' h
    cases B with
    | nil => simpa [joinSep] using h
    | cons b B =>
      simp only [List.nil_append] at h
      rw [joinSep_cons₂ sep x (by simp), joinSep_cons₂ sep x' (by simp),
        strAppend_assoc, strAppend_assoc] at h
      exact strAppend_cancel_right h
  | cons a A ih =>
    intro B x x' h
    simp only [List.cons_append] at h
    rw [joinSep_cons₂ sep a (by simp), joinSep_cons₂ sep a (by simp)] at h
    exact ih B x x' (strAppend_cancel_left h)

theorem lookup_eq_some_of_mem {P : Params} {k : String} {v : Value}
    (h : (P.map Prod.fst).Nodup) (hm : (k, v) ∈ P) : P.lookup k = some v := by
  induction P with
  | nil => cases hm
  | cons kv P ih =>
    simp only [List.map_cons, List.nodup_cons] at h
    cases hm with
    | head => simp [List.lookup]
    | tail _ hm' =>
      have hk : k ≠ kv.1 := by
        intro e
        exact h.1 (e ▸ List.mem_map_of_mem Prod.fst hm')
      have hb : (k == kv.1) = false := by simpa using hk
      cases kv with
      | mk k1 v1 => simpa [List.lookup, hb] using ih h.2 hm'

/-- The single-key value update used in the exclusion-correctness theorems:
the value bound to `k` is replaced by `v'`, every other binding is kept. -/
def updVal (k : String) (v' : Value) (kv : String × Value) : String × Value :=
  if kv.1 = k then (k, v') else kv

theorem fst_updVal (k : String) (v' : Value) (kv : String × Value) :
    (updVal k v' kv).1 = kv.1 := by
  unfold updVal
  split
  · rename_i h; exact h.symm
  · rfl

theorem lookup_map_updVal_ne {P : Params} {key k : String} (v' : Value)
    (h : key ≠ k) : (P.map (updVal k v')).lookup key = P.lookup key := by
  induction P with
  | nil => rfl
  | cons kv P ih =>
    obtain ⟨k1, v1⟩ := kv
    simp only [List.map_cons]
    by_cases hk1 : k1 = k
    · have hupd : updVal k v' (k1, v1) = (k, v') := by simp [updVal, hk1]
      rw [hupd]
      have e1 : (key == k) = false := by simpa using h
      have e2 : (key == k1) = false := by
        simp only [beq_eq_false_iff_ne]
        exact fun e => h (e.trans hk1)
      simp only [List.lookup, e1, e2, ih]
    · have hupd : updVal k v' (k1, v1) = (k1, v1) := by simp [updVal, hk1]
      rw [hupd]
      by_cases hkey : key = k1
      · simp [List.lookup, hkey]
      · have e : (key == k1) = false := by simpa using hkey
        simp only [List.lookup, e, ih]

theorem lookup_map_updVal_self {P : Params} {k : String} (v' : Value)
    (h : k ∈ P.map Prod.fst) : (P.map (updVal k v')).lookup k = some v' := by
  induction P with
  | nil => cases h
  | cons kv P ih =>
    obtain ⟨k1, v1⟩ := kv
    simp only [List.map_cons]
    by_cases hk1 : k1 = k
    · have hupd : updVal k v' (k1, v1) = (k, v') := by simp [updVal, hk1]
      rw [hupd]
      simp [List.lookup]
    · have hupd : updVal k v' (k1, v1) = (k1, v1) := by simp [updVal, hk1]
      rw [hupd]
      have e : (k == k1) = false := by
        simp only [beq_eq_false_iff_ne]
        exact fun e => hk1 e.symm
      have hm : k ∈ P.map Prod.fst := by
        simp only [List.map_cons, List.mem_cons] at h
        rcases h with h | h
        · exact absurd h (fun e => hk1 e.symm)
        · exact h
      simp only [List.lookup, e, ih hm]

theorem filter_map_keyfun (p : String → Bool) (f : String × Value → String × Value)
    (hf : ∀ kv, (f kv).1 = kv.1) (l : Params) :
    (l.map f).filter (fun kv => p kv.1) = (l.filter (fun kv => p kv.1)).map f := by
  induction l with
  | nil => rfl
  | cons kv l ih =>
    by_cases h : p kv.1 = true
    · simp [List.filter_cons, hf, h, ih]
    · simp [List.filter_cons, hf, h, ih, Bool.eq_false_iff.mpr h]

theorem map_fst_filter_keyfun (p : String → Bool) (l : Params) :
    (l.filter (fun kv => p kv.1)).map Prod.fst = (l.map Prod.fst).filter p := by
  induction l with
  | nil => rfl
  | cons kv l ih =>
    by_cases h : p kv.1 = true
    · simp [List.filter_cons, h, ih]
    · simp [List.filter_cons, h, ih, Bool.eq_false_iff.mpr h]

theorem char_digit_isDigit {d : Nat} (h : d < 10) : (Char.ofNat (48 + d)).isDigit = true := by
  interval_cases d <;> decide

theorem char_digit_toNat {d : Nat} (h : d < 10) : (Char.ofNat (48 + d)).toNat = 48 + d := by
  interval_cases d <;> decide

theorem isDigit_ne_dot {c : Char} (h : c.isDigit = true) : c ≠ '.' := by
  intro e
  subst e
  exact absurd h (by decide)

theorem natDecimalGo_digits (fuel : Nat) :
    ∀ (n : Nat) (acc : List Char), (∀ c ∈ acc, c.isDigit = true) →
      ∀ c ∈ natDecimalGo fuel n acc, c.isDigit = true := by
  induction fuel with
  | zero => intro n acc h c hc; exact h c hc
  | succ fuel ih =>
    intro n acc h c hc
    rw [natDecimalGo] at hc
    split at hc
    · exact h c hc
    · refine ih (n / 10) _ ?_ c hc
      intro c' hc'
      rcases List.mem_cons.mp hc' with h' | h'
      · subst h'
        exact char_digit_isDigit (Nat.mod_lt _ (by decide))
      · exact h c' h'

theorem natDecimal_digits (n : Nat) : ∀ c ∈ natDecimal n, c.isDigit = true := by
  unfold natDecimal
  split
  · intro c hc
    rcases List.mem_singleton.mp hc with rfl
    decide
  · exact natDecimalGo_digits (n + 1) n [] (by intro c hc; cases hc)

theorem natDecimalGo_length (fuel : Nat) :
    ∀ (n k : Nat) (acc : List Char), n < 10 ^ k →
      (natDecimalGo fuel n acc).length ≤ k + acc.length := by
  induction fuel with
  | zero =>
    intro n k acc _
    rw [natDecimalGo]
    omega
  | succ fuel ih =>
    intro n k acc hn
    rw [natDecimalGo]
    split
    · omega
    · rename_i hne
      cases k with
      | zero =>
        exfalso
        have : n = 0 := by simpa using Nat.lt_one_iff.mp (by simpa using hn)
        exact hne this
      | succ k =>
        have hdiv : n / 10 < 10 ^ k := by
          refine (Nat.div_lt_iff_lt_mul (by decide)).mpr ?_
          calc n < 10 ^ (k + 1) := hn
            _ = 10 ^ k * 10 := by ring
        have := ih (n / 10) k (Char.ofNat (48 + n % 10) :: acc) hdiv
        simp only [List.length_cons] at this
        omega

theorem natDecimal_length_le {n k : Nat} (h : n < 10 ^ k) (hk : 1 ≤ k) :
    (natDecimal n).length ≤ k := by
  unfold natDecimal
  split
  · simpa using hk
  · simpa using natDecimalGo_length (n + 1) n k [] h

theorem natDecimalGo_digitsVal (fuel : Nat) :
    ∀ (n : Nat) (acc : List Char), n ≤ fuel →
      digitsVal (natDecimalGo fuel n acc) =
        acc.foldl (fun a c => a * 10 + (c.toNat - 48)) n := by
  induction fuel with
  | zero =>
    intro n acc h
    have : n = 0 := Nat.le_zero.mp h
    subst this
    rfl
  | succ fuel ih =>
    intro n acc h
    rw [natDecimalGo]
    split
    · rename_i h0
      subst h0
      rfl
    · rename_i hne
      have hle : n / 10 ≤ fuel := by
        have : n / 10 < n := Nat.div_lt_self (Nat.pos_of_ne_zero hne) (by decide)
        omega
      rw [ih (n / 10) _ hle]
      simp only [List.foldl_cons]
      congr 1
      rw [char_digit_toNat (Nat.mod_lt _ (by decide))]
      omega

theorem digitsVal_natDecimal (n : Nat) : digitsVal (natDecimal n) = n := by
  unfold natDecimal
  split
  · rename_i h; subst h; rfl
  · rw [natDecimalGo_digitsVal (n + 1) n [] (by omega)]
    rfl

theorem formatFixed6_shape (q : ℚ) :
    ∃ intPart fracPart : String,
      formatFixed6 q = intPart ++ "." ++ fracPart ∧
      fracPart.data.length = 6 ∧ (∀ c ∈ fracPart.data, c.isDigit = true) ∧
      '.' ∉ intPart.data := by
  refine ⟨(if q.num < 0 then "-" else "") ++ String.mk (natDecimal (fixed6Scaled q / 1000000)),
    String.mk (padZeros 6 (natDecimal (fixed6Scaled q % 1000000))), rfl, ?_, ?_, ?_⟩
  · have hlt : fixed6Scaled q % 1000000 < 10 ^ 6 := Nat.mod_lt _ (by decide)
    have := natDecimal_length_le hlt (by decide)
    simp only [padZeros, List.length_append, List.length_replicate]
    omega
  · intro c hc
    simp only [padZeros] at hc
    rcases List.mem_append.mp hc with h | h
    · rcases List.eq_of_mem_replicate h with rfl
      decide
    · exact natDecimal_digits _ c h
  · intro hmem
    rw [String.data_append] at hmem
    rcases List.mem_append.mp hmem with h | h
    · split at h
      · rcases List.mem_singleton.mp h with e
        exact absurd e (by decide)
      · cases h
    · exact isDigit_ne_dot (natDecimal_digits _ _ h) rfl

theorem hexTable_getD_mem {i : Nat} (h : i < 16) : hexTable.getD i '0' ∈ hexTable := by
  interval_cases i <;> decide

theorem hexTable_toLower : ∀ c ∈ hexTable, Char.toLower c = c := by decide

theorem strToLower_hexEncode (bs : List Nat) : strToLower (hexEncode bs) = hexEncode bs := by
  unfold strToLower hexEncode
  congr 1
  show (List.map Char.toLower _) = _
  rw [show ((bs.map fun b => [hexTable.getD (b / 16 % 16) '0', hexTable.getD (b % 16) '0']).flatten).map Char.toLower = ((bs.map fun b => [hexTable.getD (b / 16 % 16) '0', hexTable.getD (b % 16) '0']).flatten).map id from ?_, List.map_id]
  apply List.map_congr_left
  intro c hc
  rcases List.mem_flatten.mp hc with ⟨l, hl, hcl⟩
  rcases List.mem_map.mp hl with ⟨b, _, rfl⟩
  have h1 : b / 16 % 16 < 16 := Nat.mod_lt _ (by decide)
  have h2 : b % 16 < 16 := Nat.mod_lt _ (by decide)
  rcases List.mem_cons.mp hcl with rfl | hcl'
  · exact hexTable_toLower _ (hexTable_getD_mem h1)
  · rcases List.mem_singleton.mp hcl' with rfl
    exact hexTable_toLower _ (hexTable_getD_mem h2)

theorem str_nil_append (s : String) : "" ++ s = s := by
  apply String.ext
  rw [String.data_append]
  exact List.nil_append _

theorem generateSignature_eq_filtered {H : HashPrims} {cfg : Config} {P : Params}
    (h : (P.map Prod.fst).Nodup) :
    GenerateSignature H cfg P = signatureOfCopy H cfg (filteredParams cfg P) := by
  unfold GenerateSignature
  rw [removeParams_copy_eq h]

theorem canonicalString_eq_filtered {cfg : Config} {P : Params}
    (h : (P.map Prod.fst).Nodup) :
    canonicalString cfg P = stringToSignOf cfg (filteredParams cfg P) := by
  unfold canonicalString
  rw [removeParams_copy_eq h]

theorem stringToSignOf_congr {cfg : Config} {m m' : Params}
    (h : buildBase m = buildBase m') :
    stringToSignOf cfg m = stringToSignOf cfg m' := by
  unfold stringToSignOf
  rw [h]

theorem signatureOfCopy_congr {H : HashPrims} {cfg : Config} {m m' : Params}
    (h : buildBase m = buildBase m') :
    signatureOfCopy H cfg m = signatureOfCopy H cfg m' := by
  unfold signatureOfCopy
  rw [stringToSignOf_congr h]

theorem signatureOfCopy_err_none {H : HashPrims} {cfg : Config} {pc : Params}
    (h : cfg.Algorithm ∈ ([MD5, SHA1, SHA256, HMAC_MD5, HMAC_SHA1, HMAC_SHA256] : List String)) :
    (signatureOfCopy H cfg pc).2 = none := by
  obtain ⟨sec, alg, sk, ik, uc⟩ := cfg
  simp only [List.mem_cons, List.not_mem_nil, or_false] at h
  rcases h with h | h | h | h | h | h <;> (subst h; rfl)

theorem jsonMarshalPairs_map_fst (kvs : List (String × Value)) :
    (jsonMarshalPairs kvs).map Prod.fst = kvs.map Prod.fst := by
  induction kvs with
  | nil => rfl
  | cons kv kvs ih =>
    cases kv
    simp [jsonMarshalPairs, ih]

theorem map_fst_map_keyfun (f : String × Value → String × Value)
    (hf : ∀ kv, (f kv).1 = kv.1) (P : Params) :
    (P.map f).map Prod.fst = P.map Prod.fst := by
  rw [List.map_map]
  exact List.map_congr_left fun kv _ => hf kv

/-- The mutation of part one of the exclusion property: every binding whose key
is excluded (the signature key or an ignored key) gets a fresh value from `g`,
every other binding is untouched. -/
def exclUpd (cfg : Config) (g : String → Value) (kv : String × Value) : String × Value :=
  if keptB cfg kv.1 then kv else (kv.1, g kv.1)

theorem fst_exclUpd (cfg : Config) (g : String → Value) (kv : String × Value) :
    (exclUpd cfg g kv).1 = kv.1 := by
  unfold exclUpd
  split <;> rfl

theorem filteredParams_map_exclUpd (cfg : Config) (g : String → Value) (P : Params) :
    filteredParams cfg (P.map (exclUpd cfg g)) = filteredParams cfg P := by
  unfold filteredParams
  rw [filter_map_keyfun _ _ (fst_exclUpd cfg g)]
  rw [show (P.filter fun kv => keptB cfg kv.1).map (exclUpd cfg g) =
      (P.filter fun kv => keptB cfg kv.1).map id from
    List.map_congr_left ?_, List.map_id]
  intro kv hkv
  have hk := (List.mem_filter.mp hkv).2
  simp [exclUpd, hk]

theorem validate_map_exclUpd {H : HashPrims} {cfg : Config} {P : Params}
    (g : String → Value) (s : String) (h : (P.map Prod.fst).Nodup) :
    Validate H cfg (P.map (exclUpd cfg g)) s = Validate H cfg P s := by
  have h' : ((P.map (exclUpd cfg g)).map Prod.fst).Nodup := by
    rw [map_fst_map_keyfun _ (fst_exclUpd cfg g)]
    exact h
  unfold Validate
  rw [generateSignature_eq_filtered h', generateSignature_eq_filtered h,
    filteredParams_map_exclUpd]

theorem buildBase_ne_of_updVal {cfg : Config} {P : Params} {k : String} {v v' : Value}
    (hnd : (P.map Prod.fst).Nodup) (hmem : (k, v) ∈ P) (hkept : keptB cfg k = true)
    (hne : convertToString v ≠ convertToString v') :
    buildBase (filteredParams cfg (P.map (updVal k v'))) ≠ buildBase (filteredParams cfg P) := by
  intro heq
  have hF' : filteredParams cfg (P.map (updVal k v')) =
      (filteredParams cfg P).map (updVal k v') := by
    unfold filteredParams
    exact filter_map_keyfun _ _ (fst_updVal k v') P
  set F := filteredParams cfg P with hF
  rw [hF'] at heq
  have hkeys : (F.map (updVal k v')).map Prod.fst = F.map Prod.fst :=
    map_fst_map_keyfun _ (fst_updVal k v') F
  have hFnd : (F.map Prod.fst).Nodup := by
    rw [hF]
    unfold filteredParams
    rw [map_fst_filter_keyfun]
    exact ((P.map Prod.fst).filter_sublist).nodup hnd
  have hmemF : (k, v) ∈ F := by
    rw [hF]
    exact List.mem_filter.mpr ⟨hmem, by simpa using hkept⟩
  have hkF : k ∈ F.map Prod.fst := List.mem_map_of_mem Prod.fst hmemF
  unfold buildBase at heq
  rw [hkeys] at heq
  set K := List.insertionSort strLe (F.map Prod.fst) with hK
  have hperm : K.Perm (F.map Prod.fst) := List.perm_insertionSort strLe _
  have hkK : k ∈ K := hperm.mem_iff.mpr hkF
  have hKnd : K.Nodup := hperm.symm.nodup hFnd
  obtain ⟨A, B, hAB⟩ := List.append_of_mem hkK
  rw [hAB] at hKnd
  rw [List.nodup_append] at hKnd
  have hkA : k ∉ A := fun hkA => hKnd.2.2 hkA (List.mem_cons_self _ _)
  have hkB : k ∉ B := ((List.nodup_cons).mp hKnd.2.1).1
  rw [hAB] at heq
  simp only [List.map_append, List.map_cons] at heq
  have hmapA : A.map (fun key => key ++ "=" ++
      convertToString (((F.map (updVal k v')).lookup key).getD Value.null)) =
      A.map (fun key => key ++ "=" ++ convertToString ((F.lookup key).getD Value.null)) := by
    apply List.map_congr_left
    intro a ha
    have hak : a ≠ k := fun e => hkA (e ▸ ha)
    rw [lookup_map_updVal_ne v' hak]
  have hmapB : B.map (fun key => key ++ "=" ++
      convertToString (((F.map (updVal k v')).lookup key).getD Value.null)) =
      B.map (fun key => key ++ "=" ++ convertToString ((F.lookup key).getD Value.null)) := by
    apply List.map_congr_left
    intro b hb
    have hbk : b ≠ k := fun e => hkB (e ▸ hb)
    rw [lookup_map_updVal_ne v' hbk]
  rw [hmapA, hmapB] at heq
  have hsegs := joinSep_inj_at "&" _ _ _ _ heq
  rw [lookup_map_updVal_self v' hkF, lookup_eq_some_of_mem hFnd hmemF] at hsegs
  exact hne (strAppend_cancel_left hsegs).symm

theorem buildBase_map_updVal_eq {cfg : Config} {P : Params} {k : String} {v v' : Value}
    (hnd : (P.map Prod.fst).Nodup) (hmem : (k, v) ∈ P)
    (hcs : convertToString v = convertToString v') :
    buildBase ((filteredParams cfg P).map (updVal k v')) =
      buildBase (filteredParams cfg P) := by
  set F := filteredParams cfg P with hF
  have hFnd : (F.map Prod.fst).Nodup := by
    rw [hF]
    unfold filteredParams
    rw [map_fst_filter_keyfun]
    exact ((P.map Prod.fst).filter_sublist).nodup hnd
  unfold buildBase
  rw [map_fst_map_keyfun _ (fst_updVal k v')]
  refine congrArg (joinSep "&") (List.map_congr_left ?_)
  intro key hkey
  by_cases hkk : key = k
  · have hkF : key ∈ F.map Prod.fst :=
      (List.perm_insertionSort strLe (F.map Prod.fst)).mem_iff.mp hkey
    have hkFk : k ∈ F.map Prod.fst := hkk ▸ hkF
    rcases List.mem_map.mp hkF with ⟨⟨k1, w⟩, hwF, hk1⟩
    simp only at hk1
    have hwFkey : (key, w) ∈ F := hk1 ▸ hwF
    have hwP : (key, w) ∈ P := (List.mem_filter.mp (hF ▸ hwFkey)).1
    have hvw : v = w := by
      have h1 := lookup_eq_some_of_mem hnd (hkk.symm ▸ hmem : (key, v) ∈ P)
      have h2 := lookup_eq_some_of_mem hnd hwP
      rw [h1] at h2
      exact (Option.some.injEq _ _).mp h2
    rw [hkk, lookup_map_updVal_self v' hkFk,
      lookup_eq_some_of_mem hFnd (hkk ▸ hwFkey)]
    simp only [Option.getD_some]
    rw [← hcs, hvw]
  · rw [lookup_map_updVal_ne v' hkk]

theorem validate_updVal_coe_eq {H : HashPrims} {cfg : Config} {P : Params}
    {k : String} {v v' : Value} (s : String)
    (hnd : (P.map Prod.fst).Nodup) (hmem : (k, v) ∈ P)
    (hcs : convertToString v = convertToString v') :
    canonicalString cfg (P.map (updVal k v')) = canonicalString cfg P ∧
    Validate H cfg (P.map (updVal k v')) s = Validate H cfg P s := by
  have hnd' : ((P.map (updVal k v')).map Prod.fst).Nodup := by
    rw [map_fst_map_keyfun _ (fst_updVal k v')]
    exact hnd
  have hF' : filteredParams cfg (P.map (updVal k v')) =
      (filteredParams cfg P).map (updVal k v') := by
    unfold filteredParams
    exact filter_map_keyfun _ _ (fst_updVal k v') P
  have hbb := @buildBase_map_updVal_eq cfg P k v v' hnd hmem hcs
  constructor
  · rw [canonicalString_eq_filtered hnd', canonicalString_eq_filtered hnd, hF']
    exact stringToSignOf_congr hbb
  · unfold Validate
    rw [generateSignature_eq_filtered hnd', generateSignature_eq_filtered hnd, hF',
      signatureOfCopy_congr hbb]

theorem canonicalString_ne_of_updVal {cfg : Config} {P : Params} {k : String} {v v' : Value}
    (hnd : (P.map Prod.fst).Nodup) (hmem : (k, v) ∈ P) (hkept : keptB cfg k = true)
    (hne : convertToString v ≠ convertToString v') :
    canonicalString cfg (P.map (updVal k v')) ≠ canonicalString cfg P := by
  have hnd' : ((P.map (updVal k v')).map Prod.fst).Nodup := by
    rw [map_fst_map_keyfun _ (fst_updVal k v')]
    exact hnd
  rw [canonicalString_eq_filtered hnd', canonicalString_eq_filtered hnd]
  intro heq
  have hbase := buildBase_ne_of_updVal hnd hmem hkept hne
  by_cases hs : cfg.Secret = ""
  · simp only [stringToSignOf, hs, ne_eq, not_true_eq_false, if_false] at heq
    exact hbase heq
  · simp only [stringToSignOf, ne_eq, hs, not_false_eq_true, if_true] at heq
    exact hbase (strAppend_cancel_right (strAppend_cancel_right heq))

/-- Dispatch of `GenerateSignature` for the `MD5` algorithm with lowercase
output. -/
theorem generateSignature_md5 (H : HashPrims) (cfg : Config) (P : Params)
    (ha : cfg.Algorithm = MD5) (hu : cfg.UpperCase = false) :
    GenerateSignature H cfg P =
      (strToLower (hexEncode (H.md5 (canonicalString cfg P))), none) := by
  obtain ⟨sec, alg, sk, ik, uc⟩ := cfg
  simp only at ha hu
  subst ha
  subst hu
  rfl

/-- Dispatch of `GenerateSignature` for the `HMAC_MD5` algorithm: the
configured secret is the HMAC key and the canonical string is the data. -/
theorem generateSignature_hmacMd5 (H : HashPrims) (cfg : Config) (P : Params)
    (ha : cfg.Algorithm = HMAC_MD5) :
    GenerateSignature H cfg P =
      (if cfg.UpperCase then strToUpper (hexEncode (H.hmacMd5 cfg.Secret (canonicalString cfg P)))
       else strToLower (hexEncode (H.hmacMd5 cfg.Secret (canonicalString cfg P))), none) := by
  obtain ⟨sec, alg, sk, ik, uc⟩ := cfg
  simp only at ha
  subst ha
  rfl

/-- Dispatch of `GenerateSignature` for the `HMAC_SHA1` algorithm. -/
theorem generateSignature_hmacSha1 (H : HashPrims) (cfg : Config) (P : Params)
    (ha : cfg.Algorithm = HMAC_SHA1) :
    GenerateSignature H cfg P =
      (if cfg.UpperCase then strToUpper (hexEncode (H.hmacSha1 cfg.Secret (canonicalString cfg P)))
       else strToLower (hexEncode (H.hmacSha1 cfg.Secret (canonicalString cfg P))), none) := by
  obtain ⟨sec, alg, sk, ik, uc⟩ := cfg
  simp only at ha
  subst ha
  rfl

/-- Dispatch of `GenerateSignature` for the `HMAC_SHA256` algorithm. -/
theorem generateSignature_hmacSha256 (H : HashPrims) (cfg : Config) (P : Params)
    (ha : cfg.Algorithm = HMAC_SHA256) :
    GenerateSignature H cfg P =
      (if cfg.UpperCase then strToUpper (hexEncode (H.hmacSha256 cfg.Secret (canonicalString cfg P)))
       else strToLower (hexEncode (H.hmacSha256 cfg.Secret (canonicalString cfg P))), none) := by
  obtain ⟨sec, alg, sk, ik, uc⟩ := cfg
  simp only at ha
  subst ha
  rfl

/-- A concrete digest bundle used to instantiate the abstract hash
capabilities in closed witness statements: each digest tags its algorithm and
echoes the code points of its input (and, for the keyed variants, of the key). -/
def idPrims : HashPrims where
  md5 s := 1 :: s.data.map Char.toNat
  sha1 s := 2 :: s.data.map Char.toNat
  sha256 s := 3 :: s.data.map Char.toNat
  hmacMd5 k s := 4 :: (k.data.map Char.toNat ++ 256 :: s.data.map Char.toNat)
  hmacSha1 k s := 5 :: (k.data.map Char.toNat ++ 256 :: s.data.map Char.toNat)
  hmacSha256 k s := 6 :: (k.data.map Char.toNat ++ 256 :: s.data.map Char.toNat)

/-- Concrete configuration for witness statements: MD5, secret
`"testSecret"`, signature key `"sign"`, ignored key `"t"`. -/
def cfgW : Config := ⟨"testSecret", MD5, "sign", ["t"], false⟩

/-- Concrete parameter mapping for witness statements. -/
def paramsW : Params := [("a", .int 1), ("t", .int 2)]

/-- The configuration of the concrete MD5 scenario: secret `"testSecret"`,
algorithm MD5, everything else defaulted by `NewSignValidator`. -/
def cfg3 : Config := NewSignValidator ⟨"testSecret", MD5, "", [], false⟩

/-- The parameters of the concrete MD5 scenario:
`id:123, name:"test", amount:100.50`. -/
def params3 : Params :=
  [("id", .int 123), ("name", .str "test"), ("amount", .float (mkRat 1005 10))]

/-- C1: for every digest bundle, every configuration whose algorithm is one of
the six recognized values, and every parameter mapping, validating a freshly
generated signature succeeds with no error. -/
theorem generate_validate_roundTrip (H : HashPrims) (cfg : Config) (P : Params)
    (h : cfg.Algorithm ∈ ([MD5, SHA1, SHA256, HMAC_MD5, HMAC_SHA1, HMAC_SHA256] : List String)) :
    Validate H cfg P (GenerateSignature H cfg P).1 = (true, none) := by
  have hn : (GenerateSignature H cfg P).2 = none := signatureOfCopy_err_none h
  unfold Validate
  rcases hg : GenerateSignature H cfg P with ⟨s, o⟩
  rw [hg] at hn
  simp only at hn
  subst hn
  simp

/-- Witness for C1 at a concrete configuration, digest bundle and mapping. -/
theorem generate_validate_roundTrip_witness :
    Validate idPrims cfgW paramsW (GenerateSignature idPrims cfgW paramsW).1 = (true, none) :=
  generate_validate_roundTrip idPrims cfgW paramsW (by decide)

/-- C3: under configuration `{secret: "testSecret", algorithm: MD5}` (other
fields defaulted) and parameters `{id:123, name:"test", amount:100.50}`, the
string built before digesting is exactly
`amount=100.500000&id=123&name=test&key=testSecret`, and the returned
signature is the (lowercase) hex encoding of the MD5 digest of that string,
with no error. -/
theorem md5_concrete_scenario :
    canonicalString cfg3 params3 = "amount=100.500000&id=123&name=test&key=testSecret" ∧
    ∀ H : HashPrims,
      GenerateSignature H cfg3 params3 =
        (hexEncode (H.md5 "amount=100.500000&id=123&name=test&key=testSecret"), none) := by
  have hcanon : canonicalString cfg3 params3 =
      "amount=100.500000&id=123&name=test&key=testSecret" := by decide
  refine ⟨hcanon, fun H => ?_⟩
  rw [generateSignature_md5 H cfg3 params3 (by decide) (by decide), hcanon,
    strToLower_hexEncode]

/-- C8: the engine never mutates the caller's mapping: the state-passing
reading of `GenerateSignature` returns the caller's mapping unchanged (only
the fresh copy is filtered) and produces the same signature, and the copy
taken on entry is equal to the input mapping. -/
theorem no_caller_mutation :
    (∀ (H : HashPrims) (cfg : Config) (P : Params),
        (GenerateSignatureProc H cfg P).2 = P ∧
        (GenerateSignatureProc H cfg P).1 = GenerateSignature H cfg P) ∧
    (∀ P : Params, (P.map Prod.fst).Nodup → copyParams P = P) :=
  ⟨fun _ _ _ => ⟨rfl, rfl⟩, fun _ h => copyParams_eq h⟩

/-- Witness for C8 at a concrete digest bundle, configuration and mapping. -/
theorem no_caller_mutation_witness :
    (GenerateSignatureProc idPrims cfgW paramsW).2 = paramsW ∧
    copyParams paramsW = paramsW :=
  ⟨(no_caller_mutation.1 idPrims cfgW paramsW).1,
   no_caller_mutation.2 paramsW (by decide)⟩

/-- C2 (amended): for every mapping with distinct keys, mutating only the
values of excluded keys (the configured signature key or the ignored keys)
never changes `Validate`'s outcome; mutating the value of any other key
changes the canonical string — and hence the signature, absent digest
collisions — exactly when the new value's string coercion differs from the
old one's: a kept key's mutation with a different coercion changes the
canonical string (second part), and any mutation whose coercion is unchanged
leaves the canonical string and `Validate`'s outcome unchanged (third
part). -/
theorem exclusion_correctness :
    (∀ (H : HashPrims) (cfg : Config) (P : Params) (g : String → Value) (s : String),
        (P.map Prod.fst).Nodup →
        Validate H cfg (P.map (exclUpd cfg g)) s = Validate H cfg P s) ∧
    (∀ (cfg : Config) (P : Params) (k : String) (v v' : Value),
        (P.map Prod.fst).Nodup → (k, v) ∈ P → keptB cfg k = true →
        convertToString v ≠ convertToString v' →
        canonicalString cfg (P.map (updVal k v')) ≠ canonicalString cfg P) ∧
    (∀ (H : HashPrims) (cfg : Config) (P : Params) (k : String) (v v' : Value) (s : String),
        (P.map Prod.fst).Nodup → (k, v) ∈ P →
        convertToString v = convertToString v' →
        canonicalString cfg (P.map (updVal k v')) = canonicalString cfg P ∧
        Validate H cfg (P.map (updVal k v')) s = Validate H cfg P s) :=
  ⟨fun _ _ _ g s h => validate_map_exclUpd g s h,
   fun _ _ _ _ _ hnd hmem hkept hne => canonicalString_ne_of_updVal hnd hmem hkept hne,
   fun _ _ _ _ _ _ s hnd hmem hcs => validate_updVal_coe_eq s hnd hmem hcs⟩

/-- C2 counterexample to the claim as stated: under the configuration
`{secret:"s", algorithm:MD5, signatureKey:"sign", no ignored keys}`, changing
the value of key `"a"` — a key that is neither ignored nor the signature key —
from `nil` to the empty string genuinely changes the mapping, yet a signature
generated before the change still validates afterwards (both values coerce to
the empty string, so the canonical string is unchanged).  So mutating a
non-excluded key does not always change `Validate`'s outcome. -/
theorem exclusion_claim_counterexample :
    updVal "a" (Value.str "") ("a", Value.null) ≠ ("a", Value.null) ∧
    keptB ⟨"s", MD5, "sign", [], false⟩ "a" = true ∧
    (Validate idPrims ⟨"s", MD5, "sign", [], false⟩ [("a", Value.null)]
      (GenerateSignature idPrims ⟨"s", MD5, "sign", [], false⟩ [("a", Value.null)]).1).1 = true ∧
    (Validate idPrims ⟨"s", MD5, "sign", [], false⟩
      ([("a", Value.null)].map (updVal "a" (Value.str "")))
      (GenerateSignature idPrims ⟨"s", MD5, "sign", [], false⟩ [("a", Value.null)]).1).1 = true :=
  ⟨by simp [updVal], by decide, by decide, by decide⟩

/-- Witness for C2 (amended) at concrete inputs: mutating the ignored key
`"t"` does not change `Validate`; mutating the kept key `"a"` from `1` to `9`
changes the canonical string; mutating `"a"` from `nil` to `""` (equal
coercions) changes neither the canonical string nor `Validate`'s outcome. -/
theorem exclusion_correctness_witness :
    Validate idPrims cfgW (paramsW.map (exclUpd cfgW fun _ => Value.int 99)) "zz" =
      Validate idPrims cfgW paramsW "zz" ∧
    canonicalString cfgW (paramsW.map (updVal "a" (Value.int 9))) ≠
      canonicalString cfgW paramsW ∧
    (canonicalString cfgW ([("a", Value.null)].map (updVal "a" (Value.str ""))) =
        canonicalString cfgW [("a", Value.null)] ∧
      Validate idPrims cfgW ([("a", Value.null)].map (updVal "a" (Value.str ""))) "zz" =
        Validate idPrims cfgW [("a", Value.null)] "zz") :=
  ⟨exclusion_correctness.1 idPrims cfgW paramsW (fun _ => Value.int 99) "zz" (by decide),
   (exclusion_correctness.2.1 cfgW paramsW "a" (Value.int 1) (Value.int 9) (by decide)
     (List.mem_cons_self _ _) (by decide) (by decide)),
   exclusion_correctness.2.2 idPrims cfgW [("a", Value.null)] "a" Value.null (Value.str "")
     "zz" (by decide) (List.mem_cons_self _ _) rfl⟩

/-- C4: when the secret is non-empty the literal segment `&key=<secret>` is
appended to the canonical base before digesting and when it is empty nothing
is appended; the HMAC variants digest that same canonical string (secret
segment included) using the same configured secret as the HMAC key — also
when the secret is empty, in which case the HMAC key is the empty string. -/
theorem secret_suffix_spec :
    (∀ (cfg : Config) (P : Params), cfg.Secret ≠ "" →
        canonicalString cfg P = canonicalBase cfg P ++ "&key=" ++ cfg.Secret) ∧
    (∀ (cfg : Config) (P : Params), cfg.Secret = "" →
        canonicalString cfg P = canonicalBase cfg P) ∧
    (∀ (H : HashPrims) (cfg : Config) (P : Params), cfg.Algorithm = HMAC_MD5 →
        GenerateSignature H cfg P =
          (if cfg.UpperCase then strToUpper (hexEncode (H.hmacMd5 cfg.Secret (canonicalString cfg P)))
           else strToLower (hexEncode (H.hmacMd5 cfg.Secret (canonicalString cfg P))), none)) ∧
    (∀ (H : HashPrims) (cfg : Config) (P : Params), cfg.Algorithm = HMAC_SHA1 →
        GenerateSignature H cfg P =
          (if cfg.UpperCase then strToUpper (hexEncode (H.hmacSha1 cfg.Secret (canonicalString cfg P)))
           else strToLower (hexEncode (H.hmacSha1 cfg.Secret (canonicalString cfg P))), none)) ∧
    (∀ (H : HashPrims) (cfg : Config) (P : Params), cfg.Algorithm = HMAC_SHA256 →
        GenerateSignature H cfg P =
          (if cfg.UpperCase then strToUpper (hexEncode (H.hmacSha256 cfg.Secret (canonicalString cfg P)))
           else strToLower (hexEncode (H.hmacSha256 cfg.Secret (canonicalString cfg P))), none)) := by
  refine ⟨fun cfg P h => ?_, fun cfg P h => ?_,
    fun H cfg P h => generateSignature_hmacMd5 H cfg P h,
    fun H cfg P h => generateSignature_hmacSha1 H cfg P h,
    fun H cfg P h => generateSignature_hmacSha256 H cfg P h⟩
  · unfold canonicalString canonicalBase stringToSignOf
    simp only [ne_eq, h, not_false_eq_true, if_true]
  · unfold canonicalString canonicalBase stringToSignOf
    simp only [ne_eq, h, not_true_eq_false, if_false]

/-- Witness for C4: a non-empty-secret configuration, an empty-secret
configuration, and an HMAC-SHA256 configuration, all at concrete inputs. -/
theorem secret_suffix_witness :
    canonicalString cfgW paramsW = canonicalBase cfgW paramsW ++ "&key=" ++ cfgW.Secret ∧
    canonicalString ⟨"", SHA1, "sign", [], false⟩ paramsW =
      canonicalBase ⟨"", SHA1, "sign", [], false⟩ paramsW ∧
    GenerateSignature idPrims ⟨"", HMAC_SHA256, "sign", [], true⟩ paramsW =
      (if (⟨"", HMAC_SHA256, "sign", [], true⟩ : Config).UpperCase then
        strToUpper (hexEncode (idPrims.hmacSha256
          (⟨"", HMAC_SHA256, "sign", [], true⟩ : Config).Secret
          (canonicalString ⟨"", HMAC_SHA256, "sign", [], true⟩ paramsW)))
       else strToLower (hexEncode (idPrims.hmacSha256
          (⟨"", HMAC_SHA256, "sign", [], true⟩ : Config).Secret
          (canonicalString ⟨"", HMAC_SHA256, "sign", [], true⟩ paramsW))), none) :=
  ⟨secret_suffix_spec.1 cfgW paramsW (by decide),
   secret_suffix_spec.2.1 ⟨"", SHA1, "sign", [], false⟩ paramsW (by decide),
   secret_suffix_spec.2.2.2.2 idPrims ⟨"", HMAC_SHA256, "sign", [], true⟩ paramsW (by decide)⟩

/-- C6: construction never fails: `NewSignValidator` is total and only
rewrites an empty signature key to `"sign"` and an empty algorithm to SHA-256,
keeping every other field; an unrecognized algorithm is reported only at
generation time, where `GenerateSignature` returns the empty signature
together with an error naming the offending value. -/
theorem construction_and_unsupported :
    (∀ config : Config,
        NewSignValidator config =
          { config with
              SignatureKey := if config.SignatureKey = "" then "sign" else config.SignatureKey,
              Algorithm := if config.Algorithm = "" then SHA256 else config.Algorithm }) ∧
    (∀ (H : HashPrims) (cfg : Config) (P : Params),
        cfg.Algorithm ∉ ([MD5, SHA1, SHA256, HMAC_MD5, HMAC_SHA1, HMAC_SHA256] : List String) →
        GenerateSignature H cfg P = ("", some ("不支持的签名算法: " ++ cfg.Algorithm))) := by
  constructor
  · intro config
    obtain ⟨sec, alg, sk, ik, uc⟩ := config
    by_cases h1 : sk = "" <;> by_cases h2 : alg = "" <;>
      simp [NewSignValidator, h1, h2]
  · intro H cfg P h
    obtain ⟨sec, alg, sk, ik, uc⟩ := cfg
    simp only [List.mem_cons, List.not_mem_nil, or_false, not_or] at h
    obtain ⟨h1, h2, h3, h4, h5, h6⟩ := h
    show signatureOfCopy _ _ _ = _
    unfold signatureOfCopy
    simp only
    rw [if_neg h1, if_neg h2, if_neg h3, if_neg h4, if_neg h5, if_neg h6]

/-- Witness for C6's generation-time failure at the unrecognized algorithm
`"sm3"`. -/
theorem construction_and_unsupported_witness :
    GenerateSignature idPrims ⟨"s", "sm3", "sign", [], false⟩ paramsW =
      ("", some ("不支持的签名算法: " ++ (⟨"s", "sm3", "sign", [], false⟩ : Config).Algorithm)) :=
  construction_and_unsupported.2 idPrims ⟨"s", "sm3", "sign", [], false⟩ paramsW (by decide)

/-- C7: `ValidateWithSignInParams` fails with the missing-signature error when
the signature key is absent from the parameters, fails with the wrong-type
error when the entry is not a string, and otherwise returns exactly
`Validate` on the parameters and that string; moreover the signature entry is
stripped before canonicalization, so removing it from the mapping does not
change the generated signature. -/
theorem validateWithSignInParams_spec :
    (∀ (H : HashPrims) (cfg : Config) (P : Params),
        P.lookup cfg.SignatureKey = none →
        ValidateWithSignInParams H cfg P = (false, some "签名参数不存在")) ∧
    (∀ (H : HashPrims) (cfg : Config) (P : Params) (v : Value),
        P.lookup cfg.SignatureKey = some v → (∀ s, v ≠ Value.str s) →
        ValidateWithSignInParams H cfg P = (false, some "签名参数不是字符串类型")) ∧
    (∀ (H : HashPrims) (cfg : Config) (P : Params) (s : String),
        P.lookup cfg.SignatureKey = some (Value.str s) →
        ValidateWithSignInParams H cfg P = Validate H cfg P s) ∧
    (∀ (H : HashPrims) (cfg : Config) (P : Params),
        (P.map Prod.fst).Nodup →
        GenerateSignature H cfg (mapDelete P cfg.SignatureKey) = GenerateSignature H cfg P) := by
  refine ⟨fun H cfg P h => ?_, fun H cfg P v hl hv => ?_, fun H cfg P s h => ?_,
    fun H cfg P hnd => ?_⟩
  · unfold ValidateWithSignInParams
    rw [h]
  · unfold ValidateWithSignInParams
    rw [hl]
    cases v with
    | str s => exact absurd rfl (hv s)
    | int n => rfl
    | float q => rfl
    | bool b => rfl
    | null => rfl
    | list vs => rfl
    | map kvs => rfl
  · unfold ValidateWithSignInParams
    rw [h]
  · have hnd' : ((mapDelete P cfg.SignatureKey).map Prod.fst).Nodup := by
      have hsub : (mapDelete P cfg.SignatureKey).Sublist P := List.filter_sublist _
      exact (hsub.map Prod.fst).nodup hnd
    rw [generateSignature_eq_filtered hnd', generateSignature_eq_filtered hnd]
    congr 1
    unfold filteredParams mapDelete
    rw [List.filter_filter]
    congr 1
    funext kv
    cases hb : (kv.1 != cfg.SignatureKey) <;> simp [keptB, hb]

/-- Witness for C7: missing signature entry, non-string signature entry,
string signature entry, and the stripping property, at concrete inputs. -/
theorem validateWithSignInParams_witness :
    ValidateWithSignInParams idPrims cfgW paramsW = (false, some "签名参数不存在") ∧
    ValidateWithSignInParams idPrims cfgW [("sign", Value.int 5)] =
      (false, some "签名参数不是字符串类型") ∧
    ValidateWithSignInParams idPrims cfgW [("sign", Value.str "ab")] =
      Validate idPrims cfgW [("sign", Value.str "ab")] "ab" ∧
    GenerateSignature idPrims cfgW (mapDelete paramsW cfgW.SignatureKey) =
      GenerateSignature idPrims cfgW paramsW :=
  ⟨validateWithSignInParams_spec.1 idPrims cfgW paramsW rfl,
   validateWithSignInParams_spec.2.1 idPrims cfgW [("sign", Value.int 5)] (Value.int 5)
     rfl (by intro s; simp),
   validateWithSignInParams_spec.2.2.1 idPrims cfgW [("sign", Value.str "ab")] "ab" rfl,
   validateWithSignInParams_spec.2.2.2 idPrims cfgW paramsW (by decide)⟩

/-- C9: the canonical string is not injective: the distinct mappings
`{a: "1&b=2"}` and `{a: "1", b: "2"}` yield the same canonical string — and
hence the same signature for every digest bundle — under every configuration
in which the differing keys `a` and `b` are not excluded from signing. -/
theorem canonical_not_injective (cfg : Config)
    (ha : "a" ∉ cfg.IgnoreKeys) (hb : "b" ∉ cfg.IgnoreKeys)
    (hsa : cfg.SignatureKey ≠ "a") (hsb : cfg.SignatureKey ≠ "b") :
    ([("a", Value.str "1&b=2")] : Params) ≠ [("a", Value.str "1"), ("b", Value.str "2")] ∧
    canonicalString cfg [("a", Value.str "1&b=2")] =
      canonicalString cfg [("a", Value.str "1"), ("b", Value.str "2")] ∧
    ∀ H : HashPrims,
      GenerateSignature H cfg [("a", Value.str "1&b=2")] =
        GenerateSignature H cfg [("a", Value.str "1"), ("b", Value.str "2")] := by
  have hka : keptB cfg "a" = true := by
    have h1 : (("a" : String) != cfg.SignatureKey) = true := by
      simpa [bne_iff_ne] using fun e => hsa e.symm
    have h2 : cfg.IgnoreKeys.contains "a" = false := by simpa using ha
    unfold keptB
    rw [h1, h2]
    rfl
  have hkb : keptB cfg "b" = true := by
    have h1 : (("b" : String) != cfg.SignatureKey) = true := by
      simpa [bne_iff_ne] using fun e => hsb e.symm
    have h2 : cfg.IgnoreKeys.contains "b" = false := by simpa using hb
    unfold keptB
    rw [h1, h2]
    rfl
  have hf1 : filteredParams cfg [("a", Value.str "1&b=2")] = [("a", Value.str "1&b=2")] := by
    unfold filteredParams
    rw [List.filter_eq_self.mpr]
    intro kv hkv
    rcases List.mem_singleton.mp hkv with rfl
    exact hka
  have hf2 : filteredParams cfg [("a", Value.str "1"), ("b", Value.str "2")] =
      [("a", Value.str "1"), ("b", Value.str "2")] := by
    unfold filteredParams
    rw [List.filter_eq_self.mpr]
    intro kv hkv
    rcases List.mem_cons.mp hkv with rfl | hkv'
    · exact hka
    · rcases List.mem_singleton.mp hkv' with rfl
      exact hkb
  have hbase : buildBase [("a", Value.str "1&b=2")] =
      buildBase [("a", Value.str "1"), ("b", Value.str "2")] := by decide
  refine ⟨by simp, ?_, fun H => ?_⟩
  · rw [canonicalString_eq_filtered (by decide), canonicalString_eq_filtered (by decide),
      hf1, hf2]
    exact stringToSignOf_congr hbase
  · rw [generateSignature_eq_filtered (by decide), generateSignature_eq_filtered (by decide),
      hf1, hf2]
    exact signatureOfCopy_congr hbase

/-- Witness for C9 at a concrete configuration and digest bundle. -/
theorem canonical_not_injective_witness :
    ([("a", Value.str "1&b=2")] : Params) ≠ [("a", Value.str "1"), ("b", Value.str "2")] ∧
    canonicalString cfgW [("a", Value.str "1&b=2")] =
      canonicalString cfgW [("a", Value.str "1"), ("b", Value.str "2")] ∧
    GenerateSignature idPrims cfgW [("a", Value.str "1&b=2")] =
      GenerateSignature idPrims cfgW [("a", Value.str "1"), ("b", Value.str "2")] :=
  ⟨(canonical_not_injective cfgW (by decide) (by decide) (by decide) (by decide)).1,
   (canonical_not_injective cfgW (by decide) (by decide) (by decide) (by decide)).2.1,
   (canonical_not_injective cfgW (by decide) (by decide) (by decide) (by decide)).2.2 idPrims⟩

/-- C10: when every parameter is removed by the filtering step (each key is
the signature key or an ignored key) and the secret is non-empty, the string
that is digested is exactly `&key=` followed by the secret, with its leading
`&` and no pair before it. -/
theorem all_filtered_leading_amp (cfg : Config) (P : Params)
    (hnd : (P.map Prod.fst).Nodup)
    (hall : ∀ kv ∈ P, kv.1 = cfg.SignatureKey ∨ kv.1 ∈ cfg.IgnoreKeys)
    (hs : cfg.Secret ≠ "") :
    canonicalString cfg P = "&key=" ++ cfg.Secret := by
  have hfilt : filteredParams cfg P = [] := by
    unfold filteredParams
    rw [List.filter_eq_nil_iff]
    intro kv hkv
    rcases hall kv hkv with h | h
    · intro hk
      unfold keptB at hk
      rw [h] at hk
      simp at hk
    · intro hk
      have hc : cfg.IgnoreKeys.contains kv.1 = true := by simpa using h
      unfold keptB at hk
      rw [hc] at hk
      simp at hk
  rw [canonicalString_eq_filtered hnd, hfilt]
  show (if cfg.Secret ≠ "" then buildBase [] ++ "&key=" ++ cfg.Secret else buildBase []) = _
  rw [if_pos hs]
  exact congrArg (· ++ cfg.Secret) (by decide)

/-- Witness for C10: a mapping holding only the signature key and an ignored
key, under a non-empty-secret configuration. -/
theorem all_filtered_leading_amp_witness :
    canonicalString cfgW [("sign", Value.int 1), ("t", Value.int 2)] = "&key=" ++ cfgW.Secret :=
  all_filtered_leading_amp cfgW [("sign", Value.int 1), ("t", Value.int 2)]
    (by decide) (by decide) (by decide)

/-- C5: the value-to-string coercion renders a string as itself, an integer as
its base-10 digits (with a sign for negatives, and the digits reading back to
the absolute value), a float with exactly six digits after the single decimal
point (`123.456` gives `"123.456000"`), booleans as `true`/`false`, nil as the
empty string, and a list or map as its JSON text with map keys in ascending
sorted order (`["a","b"]` gives `["a","b"]`). -/
theorem convertToString_spec :
    (∀ s : String, convertToString (.str s) = s) ∧
    (∀ n : Int,
        convertToString (.int n) = (if n < 0 then "-" else "") ++ String.mk (natDecimal n.natAbs) ∧
        digitsVal (natDecimal n.natAbs) = n.natAbs ∧
        ∀ c ∈ natDecimal n.natAbs, c.isDigit = true) ∧
    (∀ q : ℚ, ∃ intPart fracPart : String,
        convertToString (.float q) = intPart ++ "." ++ fracPart ∧
        fracPart.data.length = 6 ∧ (∀ c ∈ fracPart.data, c.isDigit = true) ∧
        '.' ∉ intPart.data) ∧
    convertToString (.float (mkRat 123456 1000)) = "123.456000" ∧
    (convertToString (.bool true) = "true" ∧ convertToString (.bool false) = "false" ∧
      convertToString Value.null = "") ∧
    convertToString (.list [.str "a", .str "b"]) = "[\"a\",\"b\"]" ∧
    convertToString (.map [("b", .int 2), ("a", .int 1)]) = "\x7b\"a\":1,\"b\":2\x7d" ∧
    (∀ kvs : List (String × Value), ∃ ks : List String,
        List.Sorted strLe ks ∧ ks.Perm (kvs.map Prod.fst) ∧
        convertToString (.map kvs) = "\x7b" ++
          joinSep "," (ks.map fun k =>
            "\"" ++ escapeJson k ++ "\":" ++ ((jsonMarshalPairs kvs).lookup k).getD "") ++
          "\x7d") := by
  refine ⟨fun s => rfl, fun n => ⟨?_, digitsVal_natDecimal _, natDecimal_digits _⟩,
    fun q => formatFixed6_shape q, by decide, ⟨rfl, rfl, rfl⟩, by decide, by decide,
    fun kvs => ?_⟩
  · show intDecimal n = _
    unfold intDecimal
    by_cases h : n < 0
    · simp [h]
    · rw [if_neg h, if_neg h, str_nil_append]
  · refine ⟨List.insertionSort strLe ((jsonMarshalPairs kvs).map Prod.fst),
      List.sorted_insertionSort strLe _, ?_, rfl⟩
    have hp := List.perm_insertionSort strLe ((jsonMarshalPairs kvs).map Prod.fst)
    exact hp.trans (by rw [jsonMarshalPairs_map_fst])

/-- Witness for C5 at concrete values. -/
theorem convertToString_spec_witness :
    convertToString (.str "xy") = "xy" ∧
    digitsVal (natDecimal (Int.natAbs (-45))) = Int.natAbs (-45) ∧
    ∃ intPart fracPart : String,
      convertToString (.float (mkRat 1 3)) = intPart ++ "." ++ fracPart ∧
      fracPart.data.length = 6 ∧ (∀ c ∈ fracPart.data, c.isDigit = true) ∧
      '.' ∉ intPart.data :=
  ⟨convertToString_spec.1 "xy", (convertToString_spec.2.1 (-45)).2.1,
   convertToString_spec.2.2.1 (mkRat 1 3)⟩

end SignChao
